import Mathlib

/-!
# Verification of the ConCoin client core (src/program/src/main.rs)

A shallow embedding of the peppered-hashing / secret-recording pipeline and
the text-editing state machine of the ConCoin client, together with proofs
of its specified properties.

Modelling conventions:
* Rust `String` values become `List Char`; the UTF-8 byte view used by
  `hex::encode` and the hasher is made explicit through `utf8Bytes`.
* Bytes (`u8`) and 64-bit words (`u64`) are `Nat` with explicit `% 256`
  resp. `% 2 ^ 64` where overflow matters.
* The OS random source and the filesystem are oracle parameters: a failed
  entropy draw is `none`, a failed file write is `SaveOutcome.err`.
  A Rust panic (e.g. `expect` on the RNG, or `String::insert` off a char
  boundary) is modelled as `Option.none`.
-/

/-! ## Hex encoding (model of the `hex` crate)

`hex::encode` emits, for every byte, the high nibble then the low nibble,
using the lowercase alphabet; `hex::decode` accepts both cases and fails
on odd length or a non-hex character. -/

def hexTable : List Char := "0123456789abcdef".toList

/-- One lowercase hex digit: `hexTable[n]` (for nibbles, `n < 16`). -/
def hexDigit (n : Nat) : Char := hexTable.getD n '0'

/-- Model of `hex::encode` on a byte list: high nibble first, lowercase. -/
def hexEncode (bs : List Nat) : List Char :=
  (bs.map (fun b => [hexDigit (b / 16), hexDigit (b % 16)])).flatten

/-- Value of one hex digit, accepting both lowercase and uppercase. -/
def hexDigitVal (c : Char) : Option Nat :=
  if '0' ≤ c ∧ c ≤ '9' then some (c.toNat - '0'.toNat)
  else if 'a' ≤ c ∧ c ≤ 'f' then some (c.toNat - 'a'.toNat + 10)
  else if 'A' ≤ c ∧ c ≤ 'F' then some (c.toNat - 'A'.toNat + 10)
  else none

/-- Model of `hex::decode`: pairs of digits, high nibble first; `none` on
odd length or an invalid digit. -/
def hexDecode : List Char → Option (List Nat)
  | [] => some []
  | [_] => none
  | a :: b :: rest =>
    match hexDigitVal a, hexDigitVal b, hexDecode rest with
    | some hi, some lo, some t => some ((hi * 16 + lo) :: t)
    | _, _, _ => none

/-! ## UTF-8 (the byte view of Rust strings) -/

/-- UTF-8 encoding of a single scalar value (1 to 4 bytes). -/
def utf8EncodeChar (c : Char) : List Nat :=
  let v := c.toNat
  if v < 128 then [v]
  else if v < 2048 then [192 + v / 64, 128 + v % 64]
  else if v < 65536 then [224 + v / 4096, 128 + v / 64 % 64, 128 + v % 64]
  else [240 + v / 262144, 128 + v / 4096 % 64, 128 + v / 64 % 64, 128 + v % 64]

/-- Number of bytes of a char in UTF-8 (Rust's `char::len_utf8`). -/
def charSize (c : Char) : Nat := (utf8EncodeChar c).length

/-- The UTF-8 bytes of a string (Rust's `str::as_bytes`). -/
def utf8Bytes (s : List Char) : List Nat := (s.map utf8EncodeChar).flatten

/-- UTF-8 byte length of a string (Rust's `str::len`). -/
def utf8Len (s : List Char) : Nat := (utf8Bytes s).length

/-! ## SHA-512 (model of the `sha2` crate), FIPS 180-4 -/

/-- Big-endian word from bytes. -/
def bytesToWordBE (bs : List Nat) : Nat := bs.foldl (fun a b => a * 256 + b) 0

/-- The `k` big-endian bytes of `n` (most significant first). -/
def natToBEBytes : Nat → Nat → List Nat
  | 0, _ => []
  | k + 1, n => natToBEBytes k (n / 256) ++ [n % 256]

/-- The 80 SHA-512 round constants. -/
def sha512K : List Nat := [
  4794697086780616226, 8158064640168781261, 13096744586834688815, 16840607885511220156,
  4131703408338449720, 6480981068601479193, 10538285296894168987, 12329834152419229976,
  15566598209576043074, 1334009975649890238, 2608012711638119052, 6128411473006802146,
  8268148722764581231, 9286055187155687089, 11230858885718282805, 13951009754708518548,
  16472876342353939154, 17275323862435702243, 1135362057144423861, 2597628984639134821,
  3308224258029322869, 5365058923640841347, 6679025012923562964, 8573033837759648693,
  10970295158949994411, 12119686244451234320, 12683024718118986047, 13788192230050041572,
  14330467153632333762, 15395433587784984357, 489312712824947311, 1452737877330783856,
  2861767655752347644, 3322285676063803686, 5560940570517711597, 5996557281743188959,
  7280758554555802590, 8532644243296465576, 9350256976987008742, 10552545826968843579,
  11727347734174303076, 12113106623233404929, 14000437183269869457, 14369950271660146224,
  15101387698204529176, 15463397548674623760, 17586052441742319658, 1182934255886127544,
  1847814050463011016, 2177327727835720531, 2830643537854262169, 3796741975233480872,
  4115178125766777443, 5681478168544905931, 6601373596472566643, 7507060721942968483,
  8399075790359081724, 8693463985226723168, 9568029438360202098, 10144078919501101548,
  10430055236837252648, 11840083180663258601, 13761210420658862357, 14299343276471374635,
  14566680578165727644, 15097957966210449927, 16922976911328602910, 17689382322260857208,
  500013540394364858, 748580250866718886, 1242879168328830382, 1977374033974150939,
  2944078676154940804, 3659926193048069267, 4368137639120453308, 4836135668995329356,
  5532061633213252278, 6448918945643986474, 6902733635092675308, 7801388544844847127]

/-- The eight 64-bit hash words (also the round working variables). -/
structure Sha512Hs where
  a : Nat
  b : Nat
  c : Nat
  d : Nat
  e : Nat
  f : Nat
  g : Nat
  h : Nat
  deriving Repr, DecidableEq

/-- SHA-512 initial hash value. -/
def sha512H0 : Sha512Hs :=
  ⟨7640891576956012808, 13503953896175478587, 4354685564936845355, 11912009170470909681,
   5840696475078001361, 11170449401992604703, 2270897969802886507, 6620516959819538809⟩

/-- Right rotation of a 64-bit word. -/
def rotr64 (n x : Nat) : Nat := ((x >>> n) ||| (x <<< (64 - n))) % 2 ^ 64

def bsig0 (x : Nat) : Nat := rotr64 28 x ^^^ rotr64 34 x ^^^ rotr64 39 x
def bsig1 (x : Nat) : Nat := rotr64 14 x ^^^ rotr64 18 x ^^^ rotr64 41 x
def ssig0 (x : Nat) : Nat := rotr64 1 x ^^^ rotr64 8 x ^^^ (x >>> 7)
def ssig1 (x : Nat) : Nat := rotr64 19 x ^^^ rotr64 61 x ^^^ (x >>> 6)
def chf (x y z : Nat) : Nat := (x &&& y) ^^^ ((x ^^^ (2 ^ 64 - 1)) &&& z)
def majf (x y z : Nat) : Nat := (x &&& y) ^^^ (x &&& z) ^^^ (y &&& z)

/-- Extend the 16 message words to the 80-word schedule. -/
def sha512Schedule (ws : List Nat) : List Nat :=
  (List.range 64).foldl (fun acc _ =>
    acc ++ [(ssig1 (acc.getD (acc.length - 2) 0) + acc.getD (acc.length - 7) 0 +
             ssig0 (acc.getD (acc.length - 15) 0) + acc.getD (acc.length - 16) 0) % 2 ^ 64]) ws

/-- One compression round. -/
def sha512Round (st : Sha512Hs) (kw : Nat × Nat) : Sha512Hs :=
  let t1 := (st.h + bsig1 st.e + chf st.e st.f st.g + kw.1 + kw.2) % 2 ^ 64
  let t2 := (bsig0 st.a + majf st.a st.b st.c) % 2 ^ 64
  ⟨(t1 + t2) % 2 ^ 64, st.a, st.b, st.c, (st.d + t1) % 2 ^ 64, st.e, st.f, st.g⟩

/-- Process one 128-byte block. -/
def sha512Block (hs : Sha512Hs) (block : List Nat) : Sha512Hs :=
  let ws := (List.range 16).map (fun i => bytesToWordBE ((block.drop (8 * i)).take 8))
  let st := (sha512K.zip (sha512Schedule ws)).foldl sha512Round hs
  ⟨(hs.a + st.a) % 2 ^ 64, (hs.b + st.b) % 2 ^ 64, (hs.c + st.c) % 2 ^ 64,
   (hs.d + st.d) % 2 ^ 64, (hs.e + st.e) % 2 ^ 64, (hs.f + st.f) % 2 ^ 64,
   (hs.g + st.g) % 2 ^ 64, (hs.h + st.h) % 2 ^ 64⟩

/-- Padding: append `0x80`, zeros to 112 mod 128, then the 128-bit
big-endian bit length. -/
def sha512Pad (msg : List Nat) : List Nat :=
  msg ++ 128 :: (List.replicate ((128 - (msg.length + 17) % 128) % 128) 0 ++
    natToBEBytes 16 (8 * msg.length))

/-- Split a byte list into 128-byte chunks. -/
def chunks128 (bs : List Nat) : List (List Nat) :=
  if h : bs = [] then []
  else bs.take 128 :: chunks128 (bs.drop 128)
termination_by bs.length
decreasing_by
  simp only [List.length_drop]
  exact Nat.sub_lt (List.length_pos.mpr h) (by decide)

/-- SHA-512 of a byte list: the 64-byte digest. -/
def sha512 (msg : List Nat) : List Nat :=
  let hs := (chunks128 (sha512Pad msg)).foldl sha512Block sha512H0
  natToBEBytes 8 hs.a ++ natToBEBytes 8 hs.b ++ natToBEBytes 8 hs.c ++
  natToBEBytes 8 hs.d ++ natToBEBytes 8 hs.e ++ natToBEBytes 8 hs.f ++
  natToBEBytes 8 hs.g ++ natToBEBytes 8 hs.h

/-! ## Application state (`struct App`, `enum InputMode`) -/

/-- Model of the Rust input-mode enum with variants `Normal` and `Editing`. -/
inductive InputMode where
  | Normal : InputMode
  | Editing : InputMode
  deriving Repr, DecidableEq

/-- Model of `struct App`: the whole mutable session state.  Strings are `List Char`;
`hash` is the digest display history, `secrets` the ledger
(`Vec<Vec<String>>`). -/
structure App where
  input : List Char
  character_index : Nat
  input_mode : InputMode
  hash : List (List Char)
  secrets : List (List (List Char))
  show_saved_popup : Bool
  saved_popup_info : List Char
  saved_popup_result : List Char
  deriving Repr, DecidableEq

/-- Model of `App::new()`: everything empty, `Normal` mode, cursor 0. -/
def App.new : App :=
  { input := [], character_index := 0, input_mode := InputMode.Normal,
    hash := [], secrets := [], show_saved_popup := false,
    saved_popup_info := [], saved_popup_result := [] }

/-! ## Text editing -/

/-- Model of `clamp_cursor`: `new_cursor_pos.clamp(0, self.input.chars().count())`.
On `Nat` the lower clamp at 0 is vacuous, so this is `min` with the
character count. -/
def clamp_cursor (A : App) (new_cursor_pos : Nat) : Nat :=
  min new_cursor_pos A.input.length

/-- Model of `move_cursor_left`: saturating decrement, then clamp. -/
def move_cursor_left (A : App) : App :=
  { A with character_index := clamp_cursor A (A.character_index - 1) }

/-- Model of `move_cursor_right`: saturating increment, then clamp. -/
def move_cursor_right (A : App) : App :=
  { A with character_index := clamp_cursor A (A.character_index + 1) }

/-- Model of `byte_index`: `self.input.char_indices().map(|(i, _)| i).nth(self.character_index).unwrap_or(self.input.len())` —
the byte offset of character number `character_index`, or the total byte
length when the cursor is at (or past) the end.  Computed structurally:
walking the string, each character contributes its UTF-8 size. -/
def byteIdx : List Char → Nat → Nat
  | [], _ => 0
  | _ :: _, 0 => 0
  | c :: rest, ci + 1 => charSize c + byteIdx rest ci

/-- The `byte_index` computation as a method of `App`. -/
def byte_index (A : App) : Nat := byteIdx A.input A.character_index

/-- Model of Rust `String::insert` at a byte index: `none` models the panic
when the index is not on a character boundary (or past the end). -/
def stringInsert (s : List Char) (i : Nat) (c : Char) : Option (List Char) :=
  if i = 0 then some (c :: s)
  else
    match s with
    | [] => none
    | a :: rest =>
      if i < charSize a then none
      else (stringInsert rest (i - charSize a) c).map (fun t => a :: t)

/-- Model of `enter_char`: insert at the byte index derived from the character
cursor, then `move_cursor_right`.  `none` models a panic of
`String::insert`. -/
def enter_char (A : App) (new_char : Char) : Option App :=
  (stringInsert A.input (byte_index A) new_char).map
    (fun s => move_cursor_right { A with input := s })

/-- Model of `delete_char`: no-op at cursor 0; otherwise rebuild the string from the
characters before the deleted one chained with the characters from the
cursor onward, then `move_cursor_left`. -/
def delete_char (A : App) : App :=
  if A.character_index ≠ 0 then
    let before_char_to_delete := A.input.take (A.character_index - 1)
    let after_char_to_delete := A.input.drop A.character_index
    move_cursor_left { A with input := before_char_to_delete ++ after_char_to_delete }
  else A

/-- Model of `reset_cursor`. -/
def reset_cursor (A : App) : App := { A with character_index := 0 }

/-! ## Submission pipeline -/

/-- Model of `generate_secure_pepper`: draws 32 bytes from `OsRng`.  The OS random
source is an oracle argument; `none` (draw failed) models the
`expect` panic — the fatal abort. -/
def generate_secure_pepper (rng : Option (List Nat)) : Option (List Nat) := rng

/-- Model of `hash_input_with_pepper`: a fresh `Sha512` hasher updated with the
pepper, then with the UTF-8 bytes of the input; the finalized digest is
hex-encoded.  The incremental hasher is modelled by the bytes absorbed so
far. -/
def hash_input_with_pepper (input : List Char) (pepper : List Nat) : List Char :=
  let absorbed := ([] ++ pepper) ++ utf8Bytes input
  hexEncode (sha512 absorbed)

/-- The ledger entry built by `submit_input`:
`hex::encode(pepper)`, then `","`, then `hex::encode(&self.input)`. -/
def combinedPepperInput (pepper : List Nat) (input : List Char) : List Char :=
  hexEncode pepper ++ [','] ++ hexEncode (utf8Bytes input)

/-- Model of `submit_input`: draw a pepper (fatal on entropy failure, hence
`Option`), push the digest onto the display history, push the
`"hex(pepper),hex(input)"` record onto the ledger, clear the input and
reset the cursor. -/
def submit_input (A : App) (rng : Option (List Nat)) : Option App :=
  match generate_secure_pepper rng with
  | none => none
  | some pepper =>
    some { A with
      hash := A.hash ++ [hash_input_with_pepper A.input pepper],
      secrets := A.secrets ++ [[combinedPepperInput pepper A.input]],
      input := [],
      character_index := 0 }

/-! ## Saving (`save_data_to_json`, `handle_save`) -/

/-- Outcome of the filesystem write (oracle): `ok`, or `err` carrying the
debug rendering of the `io::Error`. -/
inductive SaveOutcome where
  | ok : SaveOutcome
  | err : List Char → SaveOutcome
  deriving Repr, DecidableEq

/-- JSON string escaping of one character (quote and backslash). -/
def jsonEscapeChar (c : Char) : List Char :=
  if c = '"' then ['\\', '"'] else if c = '\\' then ['\\', '\\'] else [c]

/-- A JSON string literal. -/
def jsonString (s : List Char) : List Char :=
  '"' :: (s.map jsonEscapeChar).flatten ++ ['"']

/-- A JSON array from rendered elements, separated by `",\n"`. -/
def jsonArray (elems : List (List Char)) : List Char :=
  '[' :: (elems.intersperse (",\n".toList)).flatten ++ [']']

/-- Model of `serde_json::to_string_pretty` on the `Vec<Vec<String>>` ledger
(array of arrays of strings; the exact whitespace of the pretty printer is
immaterial to every claim). -/
def to_string_pretty (data : List (List (List Char))) : List Char :=
  jsonArray (data.map (fun row => jsonArray (row.map jsonString)))

/-- Model of `save_data_to_json`: serialize the ledger and write it to
`filename`, overwriting.  The write result is the `fs` oracle; on success
the written text is returned, on failure the error's rendering. -/
def save_data_to_json (data : List (List (List Char))) (fs : SaveOutcome) :
    Except (List Char) (List Char) :=
  match fs with
  | SaveOutcome.ok => Except.ok (to_string_pretty data)
  | SaveOutcome.err e => Except.error e

/-- The fixed target file name. -/
def saveFilename : List Char := "secrets.json".toList

/-- Popup text on success:
`format!("Data successfully saved to {:?}. Press x to close.", filename)`. -/
def savedOkInfo : List Char :=
  "Data successfully saved to \"secrets.json\". Press x to close.".toList

/-- Popup text on failure:
`format!("Error saving file: {:?}. Press x to close", e)`. -/
def savedErrInfo (e : List Char) : List Char :=
  "Error saving file: ".toList ++ e ++ ". Press x to close".toList

/-- Model of `handle_save`: save a clone of the ledger, then fully overwrite the
popup state with the outcome and make it visible. -/
def handle_save (A : App) (fs : SaveOutcome) : App :=
  match save_data_to_json A.secrets fs with
  | Except.ok _ =>
    { A with saved_popup_info := savedOkInfo,
             saved_popup_result := "Success".toList,
             show_saved_popup := true }
  | Except.error e =>
    { A with saved_popup_info := savedErrInfo e,
             saved_popup_result := "Failure".toList,
             show_saved_popup := true }

/-! ## The event loop body (`run`) -/

/-- Key event kinds (crossterm `KeyEventKind`). -/
inductive KeyKind where
  | press : KeyKind
  | rep : KeyKind
  | rel : KeyKind
  deriving Repr, DecidableEq

/-- The key codes the loop distinguishes; `other` covers every remaining
`KeyCode` variant (all of which fall into the wildcard arms). -/
inductive KeyCode where
  | char : Char → KeyCode
  | enter : KeyCode
  | backspace : KeyCode
  | left : KeyCode
  | right : KeyCode
  | esc : KeyCode
  | other : KeyCode
  deriving Repr, DecidableEq

/-- A key event: code and kind. -/
structure KeyEvent where
  code : KeyCode
  kind : KeyKind
  deriving Repr, DecidableEq

/-- Result of one loop iteration: quit (the `return Ok(())` on `q`), or
continue with the new state. -/
inductive StepResult where
  | quit : StepResult
  | cont : App → StepResult
  deriving Repr, DecidableEq

/-- One iteration of `run` on a key event.  `rng` is the entropy oracle
consumed by a submission, `fs` the filesystem oracle consumed by a save;
`none` propagates a panic (entropy failure / char-boundary violation). -/
def handleEvent (A : App) (ev : KeyEvent) (rng : Option (List Nat))
    (fs : SaveOutcome) : Option StepResult :=
  match A.input_mode with
  | InputMode.Normal =>
    match ev.code with
    | KeyCode.char c =>
      if c = 'e' then some (StepResult.cont { A with input_mode := InputMode.Editing })
      else if c = 'q' then some StepResult.quit
      else if c = 's' then some (StepResult.cont (handle_save A fs))
      else if c = 'x' then some (StepResult.cont { A with show_saved_popup := false })
      else some (StepResult.cont A)
    | _ => some (StepResult.cont A)
  | InputMode.Editing =>
    if ev.kind = KeyKind.press then
      match ev.code with
      | KeyCode.enter => (submit_input A rng).map StepResult.cont
      | KeyCode.char c => (enter_char A c).map StepResult.cont
      | KeyCode.backspace => some (StepResult.cont (delete_char A))
      | KeyCode.left => some (StepResult.cont (move_cursor_left A))
      | KeyCode.right => some (StepResult.cont (move_cursor_right A))
      | KeyCode.esc => some (StepResult.cont { A with input_mode := InputMode.Normal })
      | KeyCode.other => some (StepResult.cont A)
    else some (StepResult.cont A)

/-! ## Edit-operation sequences (for the cursor invariant) -/

/-- The four editing operations of the claim. -/
inductive EditOp where
  | ins : Char → EditOp
  | del : EditOp
  | left : EditOp
  | right : EditOp
  deriving Repr, DecidableEq

/-- Apply one editing operation (insertion can in principle panic, hence
`Option`). -/
def applyEditOp (A : App) : EditOp → Option App
  | EditOp.ins c => enter_char A c
  | EditOp.del => some (delete_char A)
  | EditOp.left => some (move_cursor_left A)
  | EditOp.right => some (move_cursor_right A)

/-- Run a sequence of editing operations from the initial state. -/
def runEditOps (ops : List EditOp) : Option App :=
  ops.foldl (fun oa op => oa.bind (fun a => applyEditOp a op)) (some App.new)

/-- Predicate: `i` is a UTF-8 character boundary of `s`. -/
def IsCharBoundary (s : List Char) (i : Nat) : Prop :=
  ∃ k, k ≤ s.length ∧ i = utf8Len (s.take k)

/-- Split a character list on a separator (the comma of a ledger entry). -/
def splitOnChar (sep : Char) : List Char → List (List Char)
  | [] => [[]]
  | c :: rest =>
    if c = sep then [] :: splitOnChar sep rest
    else
      match splitOnChar sep rest with
      | [] => [[c]]
      | f :: fs => (c :: f) :: fs

/-- The digest given by the specification's words: lowercase hex of the
SHA-512 hash of `pepper_bytes || utf8_bytes(plaintext)`. -/
def specDigest (pepper : List Nat) (plaintext : List Char) : List Char :=
  hexEncode (sha512 (pepper ++ utf8Bytes plaintext))

/-- The events a state ignores by falling into a wildcard arm: in `Normal`
mode every non-command key (a character other than `e`/`q`/`s`/`x`, or any
non-character key), in `Editing` mode a key the editor match does not
recognize. -/
def isIgnoredKey (A : App) (ev : KeyEvent) : Bool :=
  match A.input_mode, ev.code with
  | InputMode.Normal, KeyCode.char c =>
    !(c = 'e' || c = 'q' || c = 's' || c = 'x')
  | InputMode.Normal, _ => true
  | InputMode.Editing, KeyCode.other => true
  | InputMode.Editing, _ => false

/-! ## Basic lemmas: UTF-8 sizes, byte indices, insertion -/

theorem charSize_pos (c : Char) : 0 < charSize c := by
  unfold charSize utf8EncodeChar
  dsimp only
  split
  · simp
  split
  · simp
  split <;> simp

theorem utf8Len_nil : utf8Len [] = 0 := rfl

theorem utf8Len_cons (c : Char) (s : List Char) :
    utf8Len (c :: s) = charSize c + utf8Len s := by
  simp [utf8Len, utf8Bytes, charSize]

/-- The Rust `byte_index` computation is the UTF-8 length of the prefix of
`character_index` characters (`unwrap_or(len)` included: `take` beyond the
end is the whole string). -/
theorem byteIdx_eq_take (s : List Char) (ci : Nat) :
    byteIdx s ci = utf8Len (s.take ci) := by
  induction s generalizing ci with
  | nil => simp [byteIdx, utf8Len_nil]
  | cons c rest ih =>
    cases ci with
    | zero => simp [byteIdx, utf8Len_nil]
    | succ k => simp [byteIdx, utf8Len_cons, ih]

/-- Inserting at the byte offset of a character boundary succeeds and
inserts at the corresponding character position. -/
theorem stringInsert_boundary (s : List Char) (k : Nat) (c : Char) :
    stringInsert s (utf8Len (s.take k)) c = some (s.take k ++ c :: s.drop k) := by
  induction s generalizing k with
  | nil => simp [stringInsert, utf8Len_nil]
  | cons a rest ih =>
    cases k with
    | zero => simp [stringInsert, utf8Len_nil]
    | succ k =>
      have hpos := charSize_pos a
      rw [List.take_succ_cons, utf8Len_cons, stringInsert]
      have h0 : ¬ (charSize a + utf8Len (rest.take k) = 0) := by omega
      have h1 : ¬ (charSize a + utf8Len (rest.take k) < charSize a) := by omega
      rw [if_neg h0, if_neg h1, Nat.add_sub_cancel_left, ih]
      simp

/-- Key fact: `enter_char` never panics: it inserts at the character cursor (clamped
to the end) and the new cursor is the old one plus one, clamped to the new
character count. -/
theorem enter_char_eq (A : App) (c : Char) :
    enter_char A c =
      some { A with
        input := A.input.take A.character_index ++ c :: A.input.drop A.character_index,
        character_index := min (A.character_index + 1) (A.input.length + 1) } := by
  unfold enter_char byte_index
  rw [byteIdx_eq_take, stringInsert_boundary]
  have hlen : (A.input.take A.character_index ++ c :: A.input.drop A.character_index).length
      = A.input.length + 1 := by
    simp
    omega
  simp [move_cursor_right, clamp_cursor, hlen]

/-! ## Hex lemmas -/

theorem hexDigit_lt16_mem : ∀ n < 16, hexDigit n ∈ hexTable := by decide

theorem hexDigit_ne_comma (n : Nat) : hexDigit n ≠ ',' := by
  by_cases h : n < 16
  · have : ∀ m < 16, hexDigit m ≠ ',' := by decide
    exact this n h
  · unfold hexDigit
    rw [List.getD_eq_default]
    · decide
    · have : hexTable.length = 16 := by decide
      omega

theorem comma_not_mem_hexEncode (bs : List Nat) : ',' ∉ hexEncode bs := by
  intro hmem
  simp only [hexEncode, List.mem_flatten, List.mem_map] at hmem
  obtain ⟨l, ⟨b, _, rfl⟩, hc⟩ := hmem
  simp only [List.mem_cons, List.not_mem_nil, or_false] at hc
  rcases hc with hc | hc
  · exact hexDigit_ne_comma (b / 16) hc.symm
  · exact hexDigit_ne_comma (b % 16) hc.symm

theorem hexDigitVal_hexDigit {n : Nat} (h : n < 16) :
    hexDigitVal (hexDigit n) = some n := by
  have : ∀ m < 16, hexDigitVal (hexDigit m) = some m := by decide
  exact this n h

/-- Hex decoding inverts hex encoding on byte lists. -/
theorem hexDecode_hexEncode (bs : List Nat) (h : ∀ b ∈ bs, b < 256) :
    hexDecode (hexEncode bs) = some bs := by
  induction bs with
  | nil => rfl
  | cons b t ih =>
    have hb : b < 256 := h b (by simp)
    have ht : ∀ x ∈ t, x < 256 := fun x hx => h x (by simp [hx])
    have h1 : b / 16 < 16 := by omega
    have h2 : b % 16 < 16 := by omega
    have he : hexEncode (b :: t) = hexDigit (b / 16) :: hexDigit (b % 16) :: hexEncode t := by
      simp [hexEncode]
    rw [he, hexDecode, hexDigitVal_hexDigit h1, hexDigitVal_hexDigit h2, ih ht]
    have hdm : b / 16 * 16 + b % 16 = b := by omega
    simp [hdm]

theorem hexEncode_length (bs : List Nat) : (hexEncode bs).length = 2 * bs.length := by
  induction bs with
  | nil => rfl
  | cons b t ih =>
    simp only [hexEncode] at ih ⊢
    simp at ih ⊢
    omega

theorem hexEncode_mem_hexTable (bs : List Nat) (h : ∀ b ∈ bs, b < 256) :
    ∀ x ∈ hexEncode bs, x ∈ hexTable := by
  intro x hx
  simp only [hexEncode, List.mem_flatten, List.mem_map] at hx
  obtain ⟨l, ⟨b, hb, rfl⟩, hc⟩ := hx
  have hblt := h b hb
  simp only [List.mem_cons, List.not_mem_nil, or_false] at hc
  rcases hc with rfl | rfl
  · exact hexDigit_lt16_mem (b / 16) (by omega)
  · exact hexDigit_lt16_mem (b % 16) (by omega)

/-! ## UTF-8 byte bounds -/

theorem char_toNat_lt (c : Char) : c.toNat < 1114112 := by
  rcases c.valid with h | ⟨_, h2⟩
  · exact lt_trans h (by norm_num)
  · exact h2

theorem utf8EncodeChar_lt (c : Char) : ∀ b ∈ utf8EncodeChar c, b < 256 := by
  have hv := char_toNat_lt c
  unfold utf8EncodeChar
  dsimp only
  split
  · intro b hb; simp at hb; omega
  · split
    · intro b hb
      simp only [List.mem_cons, List.not_mem_nil, or_false] at hb
      rcases hb with rfl | rfl <;> omega
    · split
      · intro b hb
        simp only [List.mem_cons, List.not_mem_nil, or_false] at hb
        rcases hb with rfl | rfl | rfl <;> omega
      · intro b hb
        simp only [List.mem_cons, List.not_mem_nil, or_false] at hb
        rcases hb with rfl | rfl | rfl | rfl <;> omega

theorem utf8Bytes_lt (s : List Char) : ∀ b ∈ utf8Bytes s, b < 256 := by
  intro b hb
  simp only [utf8Bytes, List.mem_flatten, List.mem_map] at hb
  obtain ⟨l, ⟨c, _, rfl⟩, hbl⟩ := hb
  exact utf8EncodeChar_lt c b hbl

/-! ## Splitting on the comma -/

theorem splitOnChar_not_mem {sep : Char} {ys : List Char} (h : sep ∉ ys) :
    splitOnChar sep ys = [ys] := by
  induction ys with
  | nil => rfl
  | cons c t ih =>
    have hc : ¬ (c = sep) := fun hcs => h (by simp [hcs])
    have ht : sep ∉ t := fun hm => h (by simp [hm])
    simp [splitOnChar, if_neg hc, ih ht]

theorem splitOnChar_append {sep : Char} (xs ys : List Char)
    (hx : sep ∉ xs) (hy : sep ∉ ys) :
    splitOnChar sep (xs ++ sep :: ys) = [xs, ys] := by
  induction xs with
  | nil => simp [splitOnChar, splitOnChar_not_mem hy]
  | cons c t ih =>
    have hc : ¬ (c = sep) := fun hcs => hx (by simp [hcs])
    have ht : sep ∉ t := fun hm => hx (by simp [hm])
    simp [splitOnChar, if_neg hc, ih ht]

/-! ## SHA-512 digest shape -/

theorem natToBEBytes_length (k : Nat) : ∀ n, (natToBEBytes k n).length = k := by
  induction k with
  | zero => intro n; rfl
  | succ k ih => intro n; simp [natToBEBytes, ih]

theorem natToBEBytes_lt (k : Nat) : ∀ n, ∀ b ∈ natToBEBytes k n, b < 256 := by
  induction k with
  | zero => intro n b hb; simp [natToBEBytes] at hb
  | succ k ih =>
    intro n b hb
    simp only [natToBEBytes, List.mem_append, List.mem_cons, List.not_mem_nil, or_false] at hb
    rcases hb with hb | rfl
    · exact ih _ b hb
    · omega

/-- The digest is always exactly 64 bytes. -/
theorem sha512_length (msg : List Nat) : (sha512 msg).length = 64 := by
  simp [sha512, natToBEBytes_length]

theorem sha512_lt (msg : List Nat) : ∀ b ∈ sha512 msg, b < 256 := by
  intro b hb
  unfold sha512 at hb
  simp only [List.mem_append] at hb
  rcases hb with ((((((h | h) | h) | h) | h) | h) | h) | h <;>
    exact natToBEBytes_lt 8 _ b h

/-! ## Claim theorems -/

/-- C1: for every plaintext string and pepper, the digest produced on
submission equals the lowercase hexadecimal encoding of the SHA-512 hash of
`pepper_bytes || utf8_bytes(plaintext)` (pepper first), and is therefore a
128-hex-character string; determinism in `(pepper, plaintext)` is the
statement that it coincides with the function `specDigest` of exactly those
two arguments.  Stated for arbitrary peppers, hence in particular for every
32-byte one. -/
theorem claim_C1_digest_is_sha512_of_pepper_then_plaintext
    (plaintext : List Char) (pepper : List Nat) :
    hash_input_with_pepper plaintext pepper = specDigest pepper plaintext
    ∧ (hash_input_with_pepper plaintext pepper).length = 128
    ∧ ∀ ch ∈ hash_input_with_pepper plaintext pepper, ch ∈ hexTable := by
  have hspec : hash_input_with_pepper plaintext pepper = specDigest pepper plaintext := by
    simp [hash_input_with_pepper, specDigest]
  refine ⟨hspec, ?_, ?_⟩
  · rw [hspec]
    simp only [specDigest]
    rw [hexEncode_length, sha512_length]
  · intro ch hch
    rw [hspec] at hch
    simp only [specDigest] at hch
    exact hexEncode_mem_hexTable _ (sha512_lt _) ch hch

/-- C2: a submission appends exactly the comma-joined record
`hex(pepper) ++ "," ++ hex(utf8(plaintext))` to the ledger; splitting the
stored entry at the comma yields the two hex fields, and hex-decoding them
recovers exactly the original 32 pepper bytes and the original plaintext
bytes. -/
theorem claim_C2_ledger_entry_roundtrip (A : App) (pepper : List Nat)
    (h32 : pepper.length = 32) (hb : ∀ b ∈ pepper, b < 256) :
    ∃ A', submit_input A (some pepper) = some A'
      ∧ A'.secrets = A.secrets ++ [[combinedPepperInput pepper A.input]]
      ∧ splitOnChar ',' (combinedPepperInput pepper A.input)
          = [hexEncode pepper, hexEncode (utf8Bytes A.input)]
      ∧ hexDecode (hexEncode pepper) = some pepper
      ∧ (hexDecode (hexEncode pepper)).map List.length = some 32
      ∧ hexDecode (hexEncode (utf8Bytes A.input)) = some (utf8Bytes A.input) := by
  refine ⟨_, rfl, rfl, ?_, hexDecode_hexEncode pepper hb, ?_,
    hexDecode_hexEncode _ (utf8Bytes_lt A.input)⟩
  · rw [combinedPepperInput, List.append_assoc]
    exact splitOnChar_append _ _ (comma_not_mem_hexEncode _) (comma_not_mem_hexEncode _)
  · rw [hexDecode_hexEncode pepper hb, Option.map_some']
    rw [h32]

theorem claim_C2_ledger_entry_roundtrip_witness :
    ((List.replicate 32 (0 : Nat)).length = 32
      ∧ ∀ b ∈ List.replicate 32 (0 : Nat), b < 256)
    ∧ ∃ A', submit_input App.new (some (List.replicate 32 (0 : Nat))) = some A'
      ∧ A'.secrets = App.new.secrets
          ++ [[combinedPepperInput (List.replicate 32 (0 : Nat)) App.new.input]]
      ∧ splitOnChar ',' (combinedPepperInput (List.replicate 32 (0 : Nat)) App.new.input)
          = [hexEncode (List.replicate 32 (0 : Nat)), hexEncode (utf8Bytes App.new.input)]
      ∧ hexDecode (hexEncode (List.replicate 32 (0 : Nat)))
          = some (List.replicate 32 (0 : Nat))
      ∧ (hexDecode (hexEncode (List.replicate 32 (0 : Nat)))).map List.length = some 32
      ∧ hexDecode (hexEncode (utf8Bytes App.new.input))
          = some (utf8Bytes App.new.input) :=
  ⟨⟨by decide, by decide⟩,
    claim_C2_ledger_entry_roundtrip App.new (List.replicate 32 0) (by decide) (by decide)⟩

/-- C4: from any state whose cursor is a valid character position,
inserting a character and then immediately deleting before the cursor
restores the original state exactly (buffer, cursor, and every other
field). -/
theorem claim_C4_delete_inverts_insert (A : App) (c : Char)
    (h : A.character_index ≤ A.input.length) :
    ∃ A', enter_char A c = some A' ∧ delete_char A' = A := by
  refine ⟨_, enter_char_eq A c, ?_⟩
  set ci := A.character_index with hci
  set inp := A.input with hinp
  have hmin : min (ci + 1) (inp.length + 1) = ci + 1 := by omega
  have htake : (inp.take ci).length = ci := by simp; omega
  have ht : (inp.take ci ++ c :: inp.drop ci).take ci = inp.take ci := List.take_left' htake
  have hd : (inp.take ci ++ c :: inp.drop ci).drop (ci + 1) = inp.drop ci := by
    have h2 : inp.take ci ++ c :: inp.drop ci = (inp.take ci ++ [c]) ++ inp.drop ci := by simp
    rw [h2]
    refine List.drop_left' ?_
    simp [htake]
  simp only [delete_char, move_cursor_left, clamp_cursor, hmin]
  rw [if_pos (by omega : ci + 1 ≠ 0)]
  simp only [Nat.add_sub_cancel, ht, hd, List.take_append_drop]
  have hm2 : ci ⊓ inp.length = ci := by omega
  rw [hm2, hci, hinp]

theorem claim_C4_delete_inverts_insert_witness :
    ({ App.new with input := ['a', 'é'], character_index := 1 } : App).character_index ≤
      ({ App.new with input := ['a', 'é'], character_index := 1 } : App).input.length
    ∧ ∃ A', enter_char { App.new with input := ['a', 'é'], character_index := 1 } 'x' = some A'
        ∧ delete_char A' = { App.new with input := ['a', 'é'], character_index := 1 } :=
  ⟨by decide, claim_C4_delete_inverts_insert _ 'x' (by decide)⟩

/-- Every editing operation succeeds and re-establishes the cursor bound. -/
theorem applyEditOp_some (A : App) (op : EditOp)
    (h : A.character_index ≤ A.input.length) :
    ∃ A', applyEditOp A op = some A' ∧ A'.character_index ≤ A'.input.length := by
  cases op with
  | ins c =>
    refine ⟨_, enter_char_eq A c, ?_⟩
    have hlen : (A.input.take A.character_index ++ c :: A.input.drop A.character_index).length
        = A.input.length + 1 := by
      simp
      omega
    simp only [hlen]
    omega
  | del =>
    refine ⟨_, rfl, ?_⟩
    unfold delete_char
    split
    · simp only [move_cursor_left, clamp_cursor]
      omega
    · exact h
  | left =>
    refine ⟨_, rfl, ?_⟩
    simp only [move_cursor_left, clamp_cursor]
    omega
  | right =>
    refine ⟨_, rfl, ?_⟩
    simp only [move_cursor_right, clamp_cursor]
    omega

/-- Running any operation sequence from a state satisfying the cursor bound
never panics and re-establishes the bound. -/
theorem foldEditOps_some (ops : List EditOp) :
    ∀ B : App, B.character_index ≤ B.input.length →
      ∃ A, ops.foldl (fun oa op => oa.bind (fun a => applyEditOp a op)) (some B) = some A
        ∧ A.character_index ≤ A.input.length := by
  induction ops with
  | nil => intro B hB; exact ⟨B, rfl, hB⟩
  | cons op rest ih =>
    intro B hB
    obtain ⟨A', ha, hinv⟩ := applyEditOp_some B op hB
    simp only [List.foldl_cons]
    rw [show ((some B).bind fun a => applyEditOp a op) = some A' from ha]
    exact ih A' hinv

/-- C3: for every sequence of insert/delete/move operations from the
initial state, execution never panics, the final cursor lies within
`[0, character_count]`, and the derived byte index is a character
boundary of the buffer. -/
theorem claim_C3_cursor_invariant (ops : List EditOp) :
    ∃ A, runEditOps ops = some A
      ∧ A.character_index ≤ A.input.length
      ∧ IsCharBoundary A.input (byte_index A) := by
  obtain ⟨A, hr, hinv⟩ := foldEditOps_some ops App.new (Nat.le_refl 0)
  refine ⟨A, hr, hinv, A.character_index, hinv, ?_⟩
  unfold byte_index
  exact byteIdx_eq_take _ _

/-- C6: a save attempt mutates none of the ledger, the digest history, the
input buffer, the cursor, or the mode — whatever the write outcome — and
after a failure the ledger still serializes to the same document, so it
can be re-saved. -/
theorem claim_C6_save_frame (A : App) (fs : SaveOutcome) :
    (handle_save A fs).secrets = A.secrets
    ∧ (handle_save A fs).hash = A.hash
    ∧ (handle_save A fs).input = A.input
    ∧ (handle_save A fs).character_index = A.character_index
    ∧ (handle_save A fs).input_mode = A.input_mode
    ∧ to_string_pretty (handle_save A fs).secrets = to_string_pretty A.secrets := by
  cases fs <;> simp [handle_save, save_data_to_json]

/-- C8: if the secure random source cannot supply the pepper bytes, the
submission aborts fatally: there is no successor state at all (hence
nothing is appended to the digest history or the ledger, and no weak
randomness is substituted), both for `submit_input` itself and for the
Enter key in `Editing` mode. -/
theorem claim_C8_entropy_failure_aborts (A : App) (fs : SaveOutcome) :
    submit_input A none = none
    ∧ handleEvent { A with input_mode := InputMode.Editing }
        ⟨KeyCode.enter, KeyKind.press⟩ none fs = none := by
  exact ⟨rfl, rfl⟩

/-- C7: every save attempt surfaces its result: the popup is made visible,
its fields are fully overwritten (they depend only on the outcome, not on
any prior popup or session state), the outcome reads `Success` iff the
write succeeded, and on failure it reads `Failure` with the human-readable
reason message. -/
theorem claim_C7_save_result_surfaced (A : App) (fs : SaveOutcome) :
    (handle_save A fs).show_saved_popup = true
    ∧ ((handle_save A fs).saved_popup_result = "Success".toList ↔ fs = SaveOutcome.ok)
    ∧ ((handle_save A fs).saved_popup_result = "Failure".toList
        ↔ ∃ e, fs = SaveOutcome.err e)
    ∧ (fs = SaveOutcome.ok → (handle_save A fs).saved_popup_info = savedOkInfo)
    ∧ (∀ e, fs = SaveOutcome.err e → (handle_save A fs).saved_popup_info = savedErrInfo e)
    ∧ (∀ B, (handle_save B fs).saved_popup_result = (handle_save A fs).saved_popup_result
        ∧ (handle_save B fs).saved_popup_info = (handle_save A fs).saved_popup_info
        ∧ (handle_save B fs).show_saved_popup = (handle_save A fs).show_saved_popup) := by
  cases fs with
  | ok =>
    refine ⟨rfl, by simp [handle_save, save_data_to_json], ?_, fun _ => rfl, ?_,
      fun B => ⟨rfl, rfl, rfl⟩⟩
    · simp [handle_save, save_data_to_json]
    · intro e he
      exact absurd he (by simp)
  | err e =>
    refine ⟨rfl, ?_, ?_, ?_, ?_, fun B => ⟨rfl, rfl, rfl⟩⟩
    · simp [handle_save, save_data_to_json]
    · simp [handle_save, save_data_to_json]
    · intro he
      exact absurd he (by simp)
    · intro e' he'
      simp at he'
      subst he'
      rfl

theorem claim_C7_save_result_surfaced_witness :
    (handle_save App.new SaveOutcome.ok).show_saved_popup = true
    ∧ (handle_save App.new SaveOutcome.ok).saved_popup_info = savedOkInfo
    ∧ (handle_save App.new (SaveOutcome.err "disk full".toList)).saved_popup_info
        = savedErrInfo "disk full".toList :=
  ⟨(claim_C7_save_result_surfaced App.new SaveOutcome.ok).1,
   (claim_C7_save_result_surfaced App.new SaveOutcome.ok).2.2.2.1 rfl,
   (claim_C7_save_result_surfaced App.new (SaveOutcome.err "disk full".toList)).2.2.2.2.1
     "disk full".toList rfl⟩

/-- C9: an event the dispatch does not recognize — in Navigation (`Normal`)
mode any character key other than the commands `e`/`q`/`s`/`x` and any
non-character key, in `Editing` mode any key outside the editor's match —
leaves the entire state unchanged: the loop continues with the very same
`App`. -/
theorem claim_C9_ignored_keys_no_change (A : App) (ev : KeyEvent)
    (rng : Option (List Nat)) (fs : SaveOutcome)
    (h : isIgnoredKey A ev = true) :
    handleEvent A ev rng fs = some (StepResult.cont A) := by
  obtain ⟨code, kind⟩ := ev
  cases hm : A.input_mode <;> cases code <;> cases kind <;>
    simp_all [handleEvent, isIgnoredKey]

theorem claim_C9_ignored_keys_no_change_witness :
    isIgnoredKey App.new ⟨KeyCode.char 'a', KeyKind.press⟩ = true
    ∧ handleEvent App.new ⟨KeyCode.char 'a', KeyKind.press⟩ none SaveOutcome.ok
        = some (StepResult.cont App.new) :=
  ⟨by decide,
   claim_C9_ignored_keys_no_change App.new ⟨KeyCode.char 'a', KeyKind.press⟩ none
     SaveOutcome.ok (by decide)⟩

/-- C10: with the cursor at the end of the buffer (the empty buffer
included) the derived byte offset is the full byte length, so insertion
appends at the end and cannot panic; submitting an empty buffer still
appends a digest — the hash of the pepper alone — and a ledger entry whose
plaintext hex field is empty. -/
theorem claim_C10_cursor_at_end_appends (A : App) (c : Char) (pepper : List Nat)
    (h : A.character_index = A.input.length) :
    byte_index A = utf8Len A.input
    ∧ enter_char A c = some
        { A with input := A.input ++ [c], character_index := A.input.length + 1 }
    ∧ (A.input = [] →
        ∃ A', submit_input A (some pepper) = some A'
          ∧ A'.hash = A.hash ++ [hexEncode (sha512 pepper)]
          ∧ A'.secrets = A.secrets ++ [[hexEncode pepper ++ [',']]]
          ∧ splitOnChar ',' (hexEncode pepper ++ [',']) = [hexEncode pepper, []]) := by
  refine ⟨?_, ?_, ?_⟩
  · unfold byte_index
    rw [byteIdx_eq_take, h, List.take_length]
  · rw [enter_char_eq]
    simp [h]
  · intro h0
    refine ⟨_, rfl, ?_, ?_, ?_⟩
    · simp [hash_input_with_pepper, h0, utf8Bytes]
    · simp [combinedPepperInput, h0, utf8Bytes, hexEncode]
    · have hs := @splitOnChar_append ',' (hexEncode pepper) []
        (comma_not_mem_hexEncode _) (by simp)
      simpa using hs

theorem claim_C10_cursor_at_end_appends_witness :
    App.new.character_index = App.new.input.length
    ∧ byte_index App.new = utf8Len App.new.input
    ∧ enter_char App.new 'a' = some
        { App.new with
          input := App.new.input ++ ['a'],
          character_index := App.new.input.length + 1 }
    ∧ ∃ A', submit_input App.new (some [1]) = some A'
        ∧ A'.hash = App.new.hash ++ [hexEncode (sha512 [1])]
        ∧ A'.secrets = App.new.secrets ++ [[hexEncode [1] ++ [',']]]
        ∧ splitOnChar ',' (hexEncode [1] ++ [',']) = [hexEncode [1], []] := by
  have h := claim_C10_cursor_at_end_appends App.new 'a' [1] (by decide)
  exact ⟨by decide, h.1, h.2.1, h.2.2 rfl⟩

/-- Every successfully handled event preserves the pairing between the
digest history and the ledger: their lengths stay equal. -/
theorem handleEvent_preserves_pairing (B : App) (ev : KeyEvent)
    (rng : Option (List Nat)) (fs : SaveOutcome) (r : StepResult)
    (hlen : B.hash.length = B.secrets.length)
    (hr : handleEvent B ev rng fs = some r) :
    ∀ C, r = StepResult.cont C → C.hash.length = C.secrets.length := by
  intro C hC
  subst hC
  obtain ⟨code, kind⟩ := ev
  cases hm : B.input_mode <;> rw [handleEvent] at hr <;> rw [hm] at hr
  case Normal =>
    cases code with
    | char c =>
      simp only at hr
      split_ifs at hr
      · simp only [Option.some.injEq, StepResult.cont.injEq] at hr
        subst hr
        exact hlen
      · simp at hr
      · simp only [Option.some.injEq, StepResult.cont.injEq] at hr
        subst hr
        cases fs <;> simp [handle_save, save_data_to_json, hlen]
      · simp only [Option.some.injEq, StepResult.cont.injEq] at hr
        subst hr
        exact hlen
      · simp only [Option.some.injEq, StepResult.cont.injEq] at hr
        subst hr
        exact hlen
    | enter =>
      simp only [Option.some.injEq, StepResult.cont.injEq] at hr
      subst hr
      exact hlen
    | backspace =>
      simp only [Option.some.injEq, StepResult.cont.injEq] at hr
      subst hr
      exact hlen
    | left =>
      simp only [Option.some.injEq, StepResult.cont.injEq] at hr
      subst hr
      exact hlen
    | right =>
      simp only [Option.some.injEq, StepResult.cont.injEq] at hr
      subst hr
      exact hlen
    | esc =>
      simp only [Option.some.injEq, StepResult.cont.injEq] at hr
      subst hr
      exact hlen
    | other =>
      simp only [Option.some.injEq, StepResult.cont.injEq] at hr
      subst hr
      exact hlen
  case Editing =>
    by_cases hk : kind = KeyKind.press
    · rw [if_pos hk] at hr
      cases code with
      | enter =>
        cases rng with
        | none => simp [submit_input, generate_secure_pepper] at hr
        | some pepper =>
          simp only [submit_input, generate_secure_pepper, Option.map_some',
            Option.some.injEq, StepResult.cont.injEq] at hr
          subst hr
          simp [hlen]
      | char c =>
        simp only [enter_char_eq, Option.map_some', Option.some.injEq,
          StepResult.cont.injEq] at hr
        subst hr
        exact hlen
      | backspace =>
        simp only [Option.some.injEq, StepResult.cont.injEq] at hr
        subst hr
        unfold delete_char
        split <;> simp [move_cursor_left, hlen]
      | left =>
        simp only [Option.some.injEq, StepResult.cont.injEq] at hr
        subst hr
        simp [move_cursor_left, hlen]
      | right =>
        simp only [Option.some.injEq, StepResult.cont.injEq] at hr
        subst hr
        simp [move_cursor_right, hlen]
      | esc =>
        simp only [Option.some.injEq, StepResult.cont.injEq] at hr
        subst hr
        exact hlen
      | other =>
        simp only [Option.some.injEq, StepResult.cont.injEq] at hr
        subst hr
        exact hlen
    · rw [if_neg hk] at hr
      simp only [Option.some.injEq, StepResult.cont.injEq] at hr
      subst hr
      exact hlen

/-- C5: a successful submission appends exactly one digest at the end of
the history and exactly one record at the end of the ledger, clears the
buffer and resets the cursor; and the index-for-index pairing of the two
sequences (equal lengths) is preserved by every handled event. -/
theorem claim_C5_submit_appends_and_pairing (A : App) (pepper : List Nat)
    (B : App) (ev : KeyEvent) (rng : Option (List Nat)) (fs : SaveOutcome)
    (r : StepResult)
    (hlen : B.hash.length = B.secrets.length)
    (hr : handleEvent B ev rng fs = some r) :
    (∃ A', submit_input A (some pepper) = some A'
      ∧ A'.hash = A.hash ++ [hash_input_with_pepper A.input pepper]
      ∧ A'.secrets = A.secrets ++ [[combinedPepperInput pepper A.input]]
      ∧ A'.input = [] ∧ A'.character_index = 0
      ∧ A'.hash.length = A.hash.length + 1
      ∧ A'.secrets.length = A.secrets.length + 1)
    ∧ (∀ C, r = StepResult.cont C → C.hash.length = C.secrets.length) := by
  refine ⟨⟨_, rfl, rfl, rfl, rfl, rfl, by simp, by simp⟩, ?_⟩
  exact handleEvent_preserves_pairing B ev rng fs r hlen hr

theorem claim_C5_submit_appends_and_pairing_witness :
    (App.new.hash.length = App.new.secrets.length
      ∧ handleEvent App.new ⟨KeyCode.char 'e', KeyKind.press⟩ none SaveOutcome.ok
          = some (StepResult.cont { App.new with input_mode := InputMode.Editing }))
    ∧ (∃ A', submit_input App.new (some [2, 3]) = some A'
      ∧ A'.hash = App.new.hash ++ [hash_input_with_pepper App.new.input [2, 3]]
      ∧ A'.secrets = App.new.secrets ++ [[combinedPepperInput [2, 3] App.new.input]]
      ∧ A'.input = [] ∧ A'.character_index = 0
      ∧ A'.hash.length = App.new.hash.length + 1
      ∧ A'.secrets.length = App.new.secrets.length + 1)
    ∧ ({ App.new with input_mode := InputMode.Editing } : App).hash.length
        = ({ App.new with input_mode := InputMode.Editing } : App).secrets.length := by
  have h := claim_C5_submit_appends_and_pairing App.new [2, 3] App.new
    ⟨KeyCode.char 'e', KeyKind.press⟩ none SaveOutcome.ok
    (StepResult.cont { App.new with input_mode := InputMode.Editing })
    (by decide) (by decide)
  exact ⟨⟨by decide, by decide⟩, h.1, h.2 _ rfl⟩
